import Mathlib

/-!
# Verification of the cachego key-value cache library

Shallow embedding of the two cache backends of the cachego repository:

* the bounded TTL cache (`simple` in the source): a capacity-limited flat map
  with an optional snapshot store used at construction (load) and clear (dump);
* the LRU cache (`lru` in the source): a hash index over nodes of an intrusive
  doubly linked list, with head/tail pointers and O(1) unshift/pop/pull.

Go maps are modelled as association lists (`lookupAL`/`insertAL`/`eraseAL`
mirror map read, assignment and delete).  The LRU node heap is modelled as a
function from node identifiers to optional nodes, so that pointer aliasing in
`unshift`/`pop`/`pull` is reproduced exactly; a nil-pointer dereference is
modelled by an operation returning `none`.  Mutexes are dropped: every public
operation holds the single instance lock for its whole duration, so the
sequential semantics modelled here is exactly the per-instance linearized
behaviour.  The detached TTL expiry watcher is a concurrent effect and is
outside this sequential model.
-/

set_option linter.unusedVariables false

/-! ## Association lists: the model of Go maps -/

/-- Go map read `m[k]`: the first binding of `k`, if any. -/
def lookupAL {K A : Type} [DecidableEq K] : List (K × A) → K → Option A
  | [], _ => none
  | (k, a) :: rest, key => if key = k then some a else lookupAL rest key

/-- Go map assignment `m[k] = v`: replace the binding in place, or append it. -/
def insertAL {K A : Type} [DecidableEq K] : List (K × A) → K → A → List (K × A)
  | [], key, val => [(key, val)]
  | (k, a) :: rest, key, val =>
      if key = k then (k, val) :: rest else (k, a) :: insertAL rest key val

/-- Go map deletion `delete(m, k)`: drop the first binding of `k`. -/
def eraseAL {K A : Type} [DecidableEq K] : List (K × A) → K → List (K × A)
  | [], _ => []
  | (k, a) :: rest, key => if key = k then rest else (k, a) :: eraseAL rest key

/-- The keys of a map. -/
def keysAL {K A : Type} (l : List (K × A)) : List K := l.map Prod.fst

/-! ## The bounded TTL cache (`simple` in the source)

The snapshot store (the `File` interface) is an external collaborator doing
byte-level I/O plus JSON (de)serialization; it is modelled abstractly by the
outcome the cache observes from it: what `Load`+`json.Unmarshal` produce at
construction, and what `Dump` returns when `Clear` invokes it. -/

/-- What the cache observes from `opts.File.Load()` followed by
`json.Unmarshal`: the load itself failed, the bytes failed to decode,
or a decoded key-value mapping. -/
inductive LoadRes (K V : Type) where
  | loadFailed : LoadRes K V
  | decodeFailed : LoadRes K V
  | entries : List (K × V) → LoadRes K V
deriving DecidableEq

/-- Abstract model of a `File` snapshot store: the construction-time load
outcome and the error, if any, that `Dump` returns when invoked. -/
structure FileM (K V : Type) where
  loadRes : LoadRes K V
  dumpErr : Option String
deriving DecidableEq

/-- `defaultSize` from the source. -/
def defaultSize : Int := 100

/-- The `simple` cache struct: size, used counter, ttl (seconds), the flat
data map and the optional snapshot store.  The mutex is dropped (sequential
model). -/
structure simple (K V : Type) where
  size : Int
  used : Int
  ttl : Int
  data : List (K × V)
  file : Option (FileM K V)
deriving DecidableEq

/-- The `Opts` struct passed to `NewCache`. -/
structure Opts (K V : Type) where
  Size : Int
  TTL : Int
  File : Option (FileM K V)

/-- `NewCache`: effective size defaults to 100 when `opts.Size ≤ 0`; when a
file is present, a successfully loaded and decoded snapshot is installed
unless it holds more entries than the size, in which case (as on any load or
decode failure) the cache starts empty; `used` is set to the number of
installed entries. -/
def NewCache {K V : Type} (opts : Opts K V) : simple K V :=
  let s : Int := if opts.Size > 0 then opts.Size else defaultSize
  let ud : Int × List (K × V) :=
    match opts.File with
    | none => (0, [])
    | some f =>
      match f.loadRes with
      | LoadRes.loadFailed => (0, [])
      | LoadRes.decodeFailed => (0, [])
      | LoadRes.entries l => if (l.length : Int) > s then (0, []) else ((l.length : Int), l)
  { size := s, used := ud.1, ttl := opts.TTL, data := ud.2, file := opts.File }

namespace simple

variable {K V : Type} [DecidableEq K]

/-- `Set`: rejects with "cache is full" while `used ≥ size` (before looking at
the key); otherwise bumps `used` exactly when the key is new and writes the
binding.  The TTL watcher spawned when `ttl > 0` is a detached goroutine and
has no effect on the synchronous state.  Returns the new state and the error. -/
def Set (c : simple K V) (key : K) (value : V) : simple K V × Option String :=
  if c.used ≥ c.size then (c, some "cache is full")
  else
    let used' := if (lookupAL c.data key).isSome then c.used else c.used + 1
    ({ c with used := used', data := insertAL c.data key value }, none)

/-- `Get`: a pure read; returns the value when present (`none` models the
"key not found" error) together with the receiver state. -/
def Get (c : simple K V) (key : K) : Option V × simple K V :=
  match lookupAL c.data key with
  | some v => (some v, c)
  | none => (none, c)

/-- `Delete`: "key not found" error when absent; otherwise removes the
binding and decrements `used`. -/
def Delete (c : simple K V) (key : K) : simple K V × Option String :=
  match lookupAL c.data key with
  | none => (c, some "key not found")
  | some _ => ({ c with data := eraseAL c.data key, used := c.used - 1 }, none)

/-- `Clear`: when a file is configured, the current contents are marshalled
and dumped first; a dump error is returned with the state untouched.
Otherwise the map is reset and `used` zeroed. -/
def Clear (c : simple K V) : simple K V × Option String :=
  match c.file with
  | some f =>
    match f.dumpErr with
    | some e => (c, some e)
    | none => ({ c with data := [], used := 0 }, none)
  | none => ({ c with data := [], used := 0 }, none)

end simple

/-! ## The LRU cache (`lru` in the source)

Nodes live in a heap modelled as a function from node identifiers (allocation
order) to optional nodes; `prev`/`next` pointers are optional identifiers
(`none` is Go `nil`).  Every statement of the source that dereferences a
pointer is translated as an `Option.bind`, so a Go nil-pointer panic shows up
as the operation returning `none`.  Field assignments through a pointer become
point updates of the heap function, which reproduces Go's aliasing exactly
(updating a node through one name is seen through every other name). -/

/-- The `node` struct: value, key and the two intrusive list links. -/
structure node (K V : Type) where
  value : V
  key : K
  next : Option Nat
  prev : Option Nat

/-- The `lru` struct: size, used counter, head/tail pointers, the hash index
from keys to nodes, and the node heap with its allocation counter.  The mutex
is dropped (sequential model). -/
@[ext]
structure lru (K V : Type) where
  size : Int
  used : Int
  head : Option Nat
  tail : Option Nat
  cache : List (K × Nat)
  heap : Nat → Option (node K V)
  nextId : Nat

/-- Point update of the node heap: assignment through a pointer. -/
def hset {K V : Type} (h : Nat → Option (node K V)) (i : Nat) (n : node K V) :
    Nat → Option (node K V) :=
  fun j => if j = i then some n else h j

/-- `NewLRUCache`: empty index, empty list, caller-supplied size used as-is. -/
def NewLRUCache (K V : Type) (size : Int) : lru K V :=
  { size := size, used := 0, head := none, tail := none, cache := [],
    heap := fun _ => none, nextId := 0 }

namespace lru

variable {K V : Type} [DecidableEq K]

/-- `unshift(n)`: insert the node at the head.  Empty list: head and tail both
become the node.  Otherwise `n.next = l.head; l.head.prev = n; l.head = n`
(note: the node's own `prev` is NOT cleared, and `tail` is NOT updated). -/
def unshift (l : lru K V) (i : Nat) : Option (lru K V) :=
  match l.head with
  | none => some { l with head := some i, tail := some i }
  | some hd =>
    match l.heap i with
    | none => none
    | some n =>
      let heap1 := hset l.heap i { n with next := some hd }
      match heap1 hd with
      | none => none
      | some hn =>
        some { l with heap := hset heap1 hd { hn with prev := some i }, head := some i }

/-- `pop()`: evict the tail: `delete(l.cache, l.tail.key);
l.tail.prev.next = nil; l.tail = l.tail.prev`.  Dereferences `l.tail` and
`l.tail.prev`; either being nil is a panic (`none`).  Note: `head` is NOT
cleared even when the list becomes empty. -/
def pop (l : lru K V) : Option (lru K V) :=
  match l.tail with
  | none => none
  | some t =>
    match l.heap t with
    | none => none
    | some tn =>
      let cache1 := eraseAL l.cache tn.key
      match tn.prev with
      | none => none
      | some p =>
        match l.heap p with
        | none => none
        | some pn =>
          some { l with cache := cache1,
                        heap := hset l.heap p { pn with next := none },
                        tail := some p }

/-- `pull(n)`: unlink a node: `if n.prev != nil { n.prev.next = n.next };
if n.next != nil { n.next.prev = n.prev }`.  The second guard re-reads the
node, since the first assignment may alias it.  Note: `head` and `tail` are
NOT updated. -/
def pull (l : lru K V) (i : Nat) : Option (lru K V) :=
  match l.heap i with
  | none => none
  | some n =>
    let step1 : Option (Nat → Option (node K V)) :=
      match n.prev with
      | none => some l.heap
      | some p =>
        match l.heap p with
        | none => none
        | some pn => some (hset l.heap p { pn with next := n.next })
    match step1 with
    | none => none
    | some heap1 =>
      match heap1 i with
      | none => none
      | some n1 =>
        match n1.next with
        | none => some { l with heap := heap1 }
        | some q =>
          match heap1 q with
          | none => none
          | some qn => some { l with heap := hset heap1 q { qn with prev := n1.prev } }

/-- `Set`: existing key: update the value and `unshift` the node (NO `pull`
first).  New key: allocate, `unshift`, index it, bump `used`; when
`used > size`, `pop` and decrement `used`. -/
def Set (l : lru K V) (key : K) (value : V) : Option (lru K V) :=
  match lookupAL l.cache key with
  | some i =>
    match l.heap i with
    | none => none
    | some n => unshift { l with heap := hset l.heap i { n with value := value } } i
  | none =>
    let i := l.nextId
    let l1 : lru K V :=
      { l with heap := hset l.heap i { value := value, key := key, next := none, prev := none },
               nextId := i + 1 }
    match unshift l1 i with
    | none => none
    | some l2 =>
      let l3 : lru K V := { l2 with cache := insertAL l2.cache key i, used := l2.used + 1 }
      if l3.used > l3.size then
        match pop l3 with
        | none => none
        | some l4 => some { l4 with used := l4.used - 1 }
      else some l3

/-- `Get`: found: `pull` then `unshift` the node and return its value;
absent: "key not found" error (modelled by `none` in the first component)
with the state untouched. -/
def Get (l : lru K V) (key : K) : Option (Option V × lru K V) :=
  match lookupAL l.cache key with
  | none => some (none, l)
  | some i =>
    match pull l i with
    | none => none
    | some l1 =>
      match unshift l1 i with
      | none => none
      | some l2 =>
        match l2.heap i with
        | none => none
        | some n => some (some n.value, l2)

/-- `Delete`: found: `pull` the node, drop the index entry, decrement `used`;
absent: "key not found" error (first component `false`). -/
def Delete (l : lru K V) (key : K) : Option (Bool × lru K V) :=
  match lookupAL l.cache key with
  | none => some (false, l)
  | some i =>
    match pull l i with
    | none => none
    | some l1 =>
      some (true, { l1 with cache := eraseAL l1.cache key, used := l1.used - 1 })

/-- `Clear`: drop everything. -/
def Clear (l : lru K V) : lru K V :=
  { l with head := none, tail := none, cache := [], used := 0 }

end lru

/-- Run a sequence of `Set` calls, stopping at a panic. -/
def runSets {K V : Type} [DecidableEq K] (l : lru K V) : List (K × V) → Option (lru K V)
  | [] => some l
  | (k, v) :: rest =>
    match lru.Set l k v with
    | none => none
    | some l' => runSets l' rest

/-! ## Invariants and concrete runs used by the claims -/

/-- Count consistency for the TTL cache: `used` equals the number of entries,
and map keys are unique (Go maps cannot hold duplicate keys). -/
def simple.countInv {K V : Type} (c : simple K V) : Prop :=
  c.used = (c.data.length : Int) ∧ (keysAL c.data).Nodup

instance {K V : Type} [DecidableEq K] (c : simple K V) : Decidable c.countInv := by
  unfold simple.countInv; infer_instance

/-- A capacity-1 TTL cache filled with key 1. -/
def fullC : simple Nat Nat :=
  (simple.Set (NewCache { Size := 1, TTL := 0, File := none }) 1 10).1

/-- TTL cache with a snapshot store whose `Dump` fails. -/
def dumpFailC : simple Nat Nat :=
  { size := 2, used := 1, ttl := 0, data := [(1, 5)],
    file := some { loadRes := LoadRes.entries [(1, 5)], dumpErr := some "disk full" } }

/-- TTL cache with a snapshot store whose `Dump` succeeds. -/
def dumpOkC : simple Nat Nat :=
  { size := 2, used := 1, ttl := 0, data := [(1, 5)],
    file := some { loadRes := LoadRes.entries [(1, 5)], dumpErr := none } }

/-- An LRU cache of size 3 after `Set(1,11)`, `Set(2,22)`. -/
def lruPair : lru Nat Nat :=
  (runSets (NewLRUCache Nat Nat 3) [(1, 11), (2, 22)]).getD (NewLRUCache Nat Nat 3)

/-- C1's scenario, first part: fill capacity 3 with keys 1,2,3 then `Get 1`. -/
def touchGot : Option (Option Nat × lru Nat Nat) :=
  (runSets (NewLRUCache Nat Nat 3) [(1, 11), (2, 22), (3, 33)]).bind (fun s => lru.Get s 1)

/-- C1's scenario, second part: then `Set(4,44)`, forcing one eviction. -/
def touchRun : Option (lru Nat Nat) :=
  (touchGot.map Prod.snd).bind (fun s => lru.Set s 4 44)

/-- C2's scenario: capacity 2, `Set 1`, `Set 2`, then re-`Set` of key 1. -/
def reSetRun3 : Option (lru Nat Nat) :=
  runSets (NewLRUCache Nat Nat 2) [(1, 11), (2, 22), (1, 99)]

/-- C2's scenario continued with one more distinct key, forcing an eviction. -/
def reSetRun4 : Option (lru Nat Nat) :=
  runSets (NewLRUCache Nat Nat 2) [(1, 11), (2, 22), (1, 99), (3, 33)]

/-- A snapshot store whose bytes fail to decode. -/
def badDecodeFile : FileM Nat Nat := { loadRes := LoadRes.decodeFailed, dumpErr := none }

/-- A snapshot store holding two entries (more than a capacity-1 cache). -/
def bigSnapFile : FileM Nat Nat :=
  { loadRes := LoadRes.entries [(1, 5), (2, 6)], dumpErr := none }

/-- Construction options: capacity 1 with the undecodable snapshot. -/
def badDecodeOpts : Opts Nat Nat := { Size := 1, TTL := 0, File := some badDecodeFile }

/-- Construction options: capacity 1 with the oversize snapshot. -/
def bigSnapOpts : Opts Nat Nat := { Size := 1, TTL := 0, File := some bigSnapFile }

/-- Construction options: capacity 3 with the two-entry snapshot (it fits). -/
def snapOpts3 : Opts Nat Nat := { Size := 3, TTL := 0, File := some bigSnapFile }

/-! ## Claim C5: the clean shape of a distinct-key `Set`-only run

With pairwise-distinct fresh keys every `Set` takes the new-key path, the
list stays well formed, and the whole state after `m` inserts at capacity
`sz ≥ 1` has a closed form `mkClean`: node `i` holds the `i`-th key/value;
nodes `0 … e-1` (`e = m - sz.toNat`) have been evicted (their `next` was
cleared as the tail pointer walked up); the live list is `m-1 → … → e`. -/

/-- The hash index of a clean run: entries of `kvs` paired with consecutive
node identifiers starting at `i`. -/
def cacheFrom {K V : Type} : List (K × V) → Nat → List (K × Nat)
  | [], _ => []
  | (k, _) :: rest, i => (k, i) :: cacheFrom rest (i + 1)

/-- The node heap of a clean run with eviction frontier `e`: node `i` holds
the `i`-th insert; `next` is cleared up to the frontier (tail `next` plus the
pops that already happened), `prev` points one insert later except at the
newest node. -/
def cleanHeap {K V : Type} (kvs : List (K × V)) (e : Nat) : Nat → Option (node K V) :=
  fun i => (kvs[i]?).map (fun kv =>
    { value := kv.2, key := kv.1
      next := if i ≤ e then none else some (i - 1)
      prev := if i + 1 = kvs.length then none else some (i + 1) })

/-- The closed form of the LRU state after the distinct-key inserts `kvs`
on a fresh cache of size `sz`. -/
def mkClean {K V : Type} (sz : Int) (kvs : List (K × V)) : lru K V :=
  { size := sz
    used := ((kvs.length - (kvs.length - sz.toNat) : Nat) : Int)
    head := if kvs.length = 0 then none else some (kvs.length - 1)
    tail := if kvs.length = 0 then none else some (kvs.length - sz.toNat)
    cache := cacheFrom (kvs.drop (kvs.length - sz.toNat)) (kvs.length - sz.toNat)
    heap := cleanHeap kvs (kvs.length - sz.toNat)
    nextId := kvs.length }

/-- The state of a new-key `Set` right after `unshift` + index insert +
used-count bump, on a cache whose list is nonempty (`head = some hd`, with
`hn` the head node): the fresh node (id `nextId`) points at the old head,
the old head's `prev` points back, and the fresh node becomes head. -/
def afterUnshift {K V : Type} [DecidableEq K] (l : lru K V) (k : K) (v : V) (hd : Nat)
    (hn : node K V) : lru K V :=
  { l with
    heap := hset (hset (hset l.heap l.nextId { value := v, key := k, next := none, prev := none })
        l.nextId { value := v, key := k, next := some hd, prev := none })
      hd { hn with prev := some l.nextId },
    nextId := l.nextId + 1, head := some l.nextId,
    cache := insertAL l.cache k l.nextId, used := l.used + 1 }

/-! ## Claim C4: the capacity invariant over arbitrary `Set` sequences

Repeated keys corrupt the list (`Set` on an existing key skips `pull`), so
the proof uses an invariant weak enough to survive the corruption: `used`
counts the hash index exactly, and the `prev`-chain from `tail` reaches
`head` through index-canonical nodes with distinct keys.  Each eviction then
removes exactly one live index entry, and the chain is repaired at the head
by every insert. -/

/-- The `prev` pointer of node `a`, read through the heap. -/
def prevOf {K V : Type} (h : Nat → Option (node K V)) (a : Nat) : Option Nat :=
  match h a with
  | none => none
  | some n => n.prev

/-- The list `cs` is linked by `prev` pointers: each element points to the
next one. -/
def linked {K V : Type} (h : Nat → Option (node K V)) : List Nat → Prop
  | a :: b :: rest => prevOf h a = some b ∧ linked h (b :: rest)
  | _ => True

/-- Node `c` exists and the hash index maps its key back to `c`. -/
def canonicalNode {K V : Type} [DecidableEq K] (h : Nat → Option (node K V))
    (cache : List (K × Nat)) (c : Nat) : Prop :=
  ∃ n, h c = some n ∧ lookupAL cache n.key = some c

/-- A well-formed tail-to-head chain: linked, duplicate-free, all nodes
canonical and below the allocation counter. -/
def chainOK {K V : Type} [DecidableEq K] (l : lru K V) (cs : List Nat) : Prop :=
  linked l.heap cs ∧ cs.Nodup ∧
  ∀ c ∈ cs, canonicalNode l.heap l.cache c ∧ c < l.nextId

/-- The invariant carried through arbitrary `Set` sequences. -/
def InvL {K V : Type} [DecidableEq K] (l : lru K V) : Prop :=
  l.used = (l.cache.length : Int) ∧ (keysAL l.cache).Nodup ∧
  (∀ p ∈ l.cache, (∃ n, l.heap p.2 = some n ∧ n.key = p.1) ∧ p.2 < l.nextId) ∧
  ((l.used = 0 ∧ l.head = none ∧ l.tail = none ∧ l.cache = []) ∨
   (1 ≤ l.used ∧ l.used ≤ l.size ∧
    ∃ t cs hd, l.tail = some t ∧ l.head = some hd ∧
      (t :: cs).getLast? = some hd ∧ chainOK l (t :: cs)))

section ALLemmas

variable {K A : Type} [DecidableEq K]

theorem lookupAL_eq_none_iff (l : List (K × A)) (k : K) :
    lookupAL l k = none ↔ k ∉ keysAL l := by
  induction l with
  | nil => simp [lookupAL, keysAL]
  | cons p rest ih =>
    obtain ⟨k', a⟩ := p
    by_cases h : k = k'
    · simp [lookupAL, keysAL, h]
    · simp only [lookupAL, keysAL, h, if_false, List.map_cons, List.mem_cons]
      simp only [keysAL] at ih
      simp [ih, h]

theorem lookupAL_isSome_iff (l : List (K × A)) (k : K) :
    (lookupAL l k).isSome = true ↔ k ∈ keysAL l := by
  rw [Option.isSome_iff_ne_none, ne_eq, lookupAL_eq_none_iff]
  exact not_not

theorem lookupAL_insertAL_self (l : List (K × A)) (k : K) (v : A) :
    lookupAL (insertAL l k v) k = some v := by
  induction l with
  | nil => simp [insertAL, lookupAL]
  | cons p rest ih =>
    obtain ⟨k', a⟩ := p
    by_cases h : k = k' <;> simp [insertAL, lookupAL, h, ih]

theorem lookupAL_insertAL_other (l : List (K × A)) (k k' : K) (v : A) (hne : k' ≠ k) :
    lookupAL (insertAL l k v) k' = lookupAL l k' := by
  induction l with
  | nil => simp [insertAL, lookupAL, hne]
  | cons p rest ih =>
    obtain ⟨k0, a⟩ := p
    by_cases h : k = k0
    · subst h; simp [insertAL, lookupAL, hne]
    · by_cases h' : k' = k0 <;> simp [insertAL, lookupAL, h, h', ih]

theorem length_insertAL_of_absent (l : List (K × A)) (k : K) (v : A)
    (h : lookupAL l k = none) : (insertAL l k v).length = l.length + 1 := by
  induction l with
  | nil => simp [insertAL]
  | cons p rest ih =>
    obtain ⟨k', a⟩ := p
    by_cases hk : k = k'
    · simp [lookupAL, hk] at h
    · simp [lookupAL, hk] at h
      simp [insertAL, hk, ih h]

theorem length_insertAL_of_present (l : List (K × A)) (k : K) (v : A)
    (h : (lookupAL l k).isSome = true) : (insertAL l k v).length = l.length := by
  induction l with
  | nil => simp [lookupAL] at h
  | cons p rest ih =>
    obtain ⟨k', a⟩ := p
    by_cases hk : k = k'
    · simp [insertAL, hk]
    · simp [lookupAL, hk] at h
      simp [insertAL, hk, ih h]

theorem insertAL_of_absent (l : List (K × A)) (k : K) (v : A)
    (h : lookupAL l k = none) : insertAL l k v = l ++ [(k, v)] := by
  induction l with
  | nil => simp [insertAL]
  | cons p rest ih =>
    obtain ⟨k', a⟩ := p
    by_cases hk : k = k'
    · simp [lookupAL, hk] at h
    · simp [lookupAL, hk] at h
      simp [insertAL, hk, ih h]

theorem keysAL_insertAL_of_absent (l : List (K × A)) (k : K) (v : A)
    (h : lookupAL l k = none) : keysAL (insertAL l k v) = keysAL l ++ [k] := by
  rw [insertAL_of_absent l k v h]; simp [keysAL]

theorem keysAL_insertAL_of_present (l : List (K × A)) (k : K) (v : A)
    (h : (lookupAL l k).isSome = true) : keysAL (insertAL l k v) = keysAL l := by
  induction l with
  | nil => simp [lookupAL] at h
  | cons p rest ih =>
    obtain ⟨k', a⟩ := p
    by_cases hk : k = k'
    · simp [insertAL, keysAL, hk]
    · simp [lookupAL, hk] at h
      simp [insertAL, keysAL, hk] at ih ⊢
      exact ih h

theorem nodup_keysAL_insertAL (l : List (K × A)) (k : K) (v : A)
    (h : (keysAL l).Nodup) : (keysAL (insertAL l k v)).Nodup := by
  rcases ho : lookupAL l k with _ | a
  · rw [keysAL_insertAL_of_absent l k v ho]
    rw [List.nodup_append]
    refine ⟨h, List.nodup_singleton k, ?_⟩
    intro x hx hx'
    simp at hx'
    subst hx'
    rw [lookupAL_eq_none_iff] at ho
    exact ho hx
  · rw [keysAL_insertAL_of_present l k v (by simp [ho])]
    exact h

theorem eraseAL_of_absent (l : List (K × A)) (k : K)
    (h : lookupAL l k = none) : eraseAL l k = l := by
  induction l with
  | nil => simp [eraseAL]
  | cons p rest ih =>
    obtain ⟨k', a⟩ := p
    by_cases hk : k = k'
    · simp [lookupAL, hk] at h
    · simp [lookupAL, hk] at h
      simp [eraseAL, hk, ih h]

theorem length_eraseAL_of_present (l : List (K × A)) (k : K)
    (h : (lookupAL l k).isSome = true) : l.length = (eraseAL l k).length + 1 := by
  induction l with
  | nil => simp [lookupAL] at h
  | cons p rest ih =>
    obtain ⟨k', a⟩ := p
    by_cases hk : k = k'
    · simp [eraseAL, hk]
    · simp [lookupAL, hk] at h
      simp [eraseAL, hk, ih h]

theorem lookupAL_eraseAL_other (l : List (K × A)) (k k' : K) (hne : k' ≠ k) :
    lookupAL (eraseAL l k) k' = lookupAL l k' := by
  induction l with
  | nil => simp [eraseAL]
  | cons p rest ih =>
    obtain ⟨k0, a⟩ := p
    by_cases hk : k = k0
    · subst hk; simp [eraseAL, lookupAL, hne]
    · by_cases h' : k' = k0 <;> simp [eraseAL, lookupAL, hk, h', ih]

theorem keysAL_eraseAL_sublist (l : List (K × A)) (k : K) :
    (keysAL (eraseAL l k)).Sublist (keysAL l) := by
  induction l with
  | nil => simp [eraseAL]
  | cons p rest ih =>
    obtain ⟨k0, a⟩ := p
    by_cases hk : k = k0
    · simp only [eraseAL, hk, if_pos rfl, keysAL, List.map_cons]
      exact List.sublist_cons_self _ _
    · simp only [eraseAL, hk, if_false, keysAL, List.map_cons]
      exact List.Sublist.cons₂ _ ih

theorem nodup_keysAL_eraseAL (l : List (K × A)) (k : K)
    (h : (keysAL l).Nodup) : (keysAL (eraseAL l k)).Nodup :=
  (keysAL_eraseAL_sublist l k).nodup h

theorem lookupAL_mem (l : List (K × A)) (k : K) (a : A)
    (h : lookupAL l k = some a) : (k, a) ∈ l := by
  induction l with
  | nil => simp [lookupAL] at h
  | cons p rest ih =>
    obtain ⟨k', a'⟩ := p
    by_cases hk : k = k'
    · simp [lookupAL, hk] at h
      simp [hk, h]
    · simp [lookupAL, hk] at h
      simp [ih h]

theorem mem_lookupAL_of_nodup (l : List (K × A)) (k : K) (a : A)
    (hnd : (keysAL l).Nodup) (h : (k, a) ∈ l) : lookupAL l k = some a := by
  induction l with
  | nil => simp at h
  | cons p rest ih =>
    obtain ⟨k', a'⟩ := p
    simp only [keysAL, List.map_cons, List.nodup_cons] at hnd
    rw [List.mem_cons] at h
    rcases h with h | h
    · rw [Prod.mk.injEq] at h
      simp [lookupAL, h.1, h.2]
    · have hk : k ≠ k' := by
        rintro rfl
        exact hnd.1 (by simpa using List.mem_map_of_mem Prod.fst h)
      simp only [lookupAL, hk, if_false]
      exact ih hnd.2 h
end ALLemmas

/-! ## Claims C1, C2, C8: the LRU list maintenance bugs -/

/-- C1.  LRU touch-refresh: with capacity 3, after `Set 1,2,3` then a
successful `Get 1` (it returns value 11), the next `Set 4` evicts key 1 —
not key 2 as the spec states.  `pull` never updates `tail`, so after
`Get` of the tail key the tail still points at the just-touched node and the
next eviction removes exactly the most-recently-used key.  The code
contradicts `Get`'s own documentation ("moves the corresponding item to the
front (MRU position)"): the claim is right and the code is wrong. -/
theorem lru_touch_refresh_bug :
    touchGot.map Prod.fst = some (some 11) ∧
    touchRun.map (fun s => (lookupAL s.cache 1, (lookupAL s.cache 2).isSome,
        (lookupAL s.cache 3).isSome, (lookupAL s.cache 4).isSome, s.cache.length))
      = some (none, true, true, true, 3) := by
  decide

/-- C2.  `Set` on an existing key calls `unshift` without `pull`ing the node
first, so the "previous order with this node moved to front" claim fails:
with capacity 2 and list `[2, 1]` (head 2 = node id 1, tail 1 = node id 0),
re-`Set` of key 1 leaves BOTH `head` and `tail` pointing at key 1's node
(id 0) — the claimed order `[1, 2]` would have tail = key 2's node (id 1) —
and the node links form a 2-cycle.  Consequently the next `Set 3` evicts
key 1, the key just re-set, instead of key 2.  The error component is indeed
`none` (`Set` always reports success).  The code contradicts `Set`'s own
documentation ("moves the item to the front of the cache (MRU position)"):
code bug. -/
theorem lru_set_existing_order_bug :
    reSetRun3.map (fun s => (s.head, s.tail, lookupAL s.cache 1, lookupAL s.cache 2, s.used))
      = some (some 0, some 0, some 0, some 1, 2) ∧
    (reSetRun3.bind (fun s => s.heap 0)).map (fun n => (n.next, n.prev))
      = some (some 1, some 1) ∧
    reSetRun4.map (fun s => (lookupAL s.cache 1, (lookupAL s.cache 2).isSome,
        (lookupAL s.cache 3).isSome)) = some (none, true, true) := by
  decide

/-- C8.  Inserting into an empty list does set head and tail to the same
node (second conjunct: a single `Set` on an empty capacity-1 cache leaves
`head = tail = node 0`).  But an eviction performed when the used-count
equals one does NOT complete: `pop` dereferences `l.tail.prev`, which is nil
for a single-node list, so a `Set` that triggers eviction on a cache of
capacity 0 panics instead of leaving the list empty (first conjunct: the
operation faults).  The claim is right and `pop` is wrong: code bug. -/
theorem lru_eviction_single_node :
    (lru.Set (NewLRUCache Nat Nat 0) 1 2).isSome = false ∧
    (lru.Set (NewLRUCache Nat Nat 1) 5 7).map (fun s => (s.head, s.tail, s.used))
      = some (some 0, some 0, 1) := by
  decide

/-! ## Claims C3, C6, C7, C9, C10: the TTL cache -/

/-- C3, counterexample.  A capacity-1 TTL cache holding key 1 (`used = size`)
rejects a re-`Set` of the PRESENT key 1 with "cache is full" and mutates
nothing — the claim asserts this case succeeds with no error.  The guard
`used >= size` fires before the key is looked up. -/
theorem simple_set_full_reSet_errors :
    fullC.used = fullC.size ∧ lookupAL fullC.data 1 = some 10 ∧
    simple.Set fullC 1 20 = (fullC, some "cache is full") := by
  decide

/-- C3, amended.  TTL cache `Set` fails with "cache is full" (and mutates
nothing) exactly when `used ≥ size`, regardless of whether the key is
present; otherwise it inserts or overwrites the value, returns no error, and
increments the used-count only when the key is new. -/
theorem simple_set_amended {K V : Type} [DecidableEq K] (c : simple K V) (k : K) (v : V) :
    (c.used ≥ c.size → simple.Set c k v = (c, some "cache is full")) ∧
    (c.used < c.size →
      (simple.Set c k v).2 = none ∧
      (simple.Set c k v).1.data = insertAL c.data k v ∧
      (simple.Set c k v).1.used =
        (if (lookupAL c.data k).isSome then c.used else c.used + 1) ∧
      (simple.Set c k v).1.size = c.size ∧ (simple.Set c k v).1.ttl = c.ttl ∧
      (simple.Set c k v).1.file = c.file) := by
  constructor
  · intro h
    unfold simple.Set
    rw [if_pos h]
  · intro h
    have h' : ¬ c.used ≥ c.size := not_le.mpr h
    unfold simple.Set
    rw [if_neg h']
    rcases ho : lookupAL c.data k with _ | a <;> simp [ho]

/-- C3, witness for the amended theorem: both branches at concrete inputs. -/
theorem simple_set_amended_witness :
    simple.Set fullC 2 20 = (fullC, some "cache is full") ∧
    (simple.Set dumpOkC 2 7).2 = none ∧
    (simple.Set dumpOkC 2 7).1.data = insertAL dumpOkC.data 2 7 ∧
    (simple.Set dumpOkC 2 7).1.used = dumpOkC.used + 1 := by
  refine ⟨(simple_set_amended fullC 2 20).1 (by decide), ?_, ?_, ?_⟩
  · exact ((simple_set_amended dumpOkC 2 7).2 (by decide)).1
  · exact ((simple_set_amended dumpOkC 2 7).2 (by decide)).2.1
  · have h := ((simple_set_amended dumpOkC 2 7).2 (by decide)).2.2.1
    rw [h]; decide

/-- C6.  TTL cache `Clear` atomicity: with a snapshot store whose `Dump`
fails, `Clear` returns exactly that error and the whole state — in
particular mapping and used-count — is exactly as before; when `Dump`
succeeds, or no store is configured, `Clear` empties the mapping, zeroes the
used-count and returns no error. -/
theorem simple_clear_atomic {K V : Type} [DecidableEq K] (c : simple K V) :
    (∀ f e, c.file = some f → f.dumpErr = some e → simple.Clear c = (c, some e)) ∧
    (∀ f, c.file = some f → f.dumpErr = none →
      simple.Clear c = ({ c with data := [], used := 0 }, none)) ∧
    (c.file = none → simple.Clear c = ({ c with data := [], used := 0 }, none)) := by
  refine ⟨?_, ?_, ?_⟩
  · intro f e hf he; simp [simple.Clear, hf, he]
  · intro f hf he; simp [simple.Clear, hf, he]
  · intro hf; simp [simple.Clear, hf]

/-- C6 witness: the theorem applied at a failing store and a succeeding one. -/
theorem simple_clear_atomic_witness :
    simple.Clear dumpFailC = (dumpFailC, some "disk full") ∧
    simple.Clear dumpOkC = ({ dumpOkC with data := [], used := 0 }, none) := by
  constructor
  · exact (simple_clear_atomic dumpFailC).1 _ _ rfl rfl
  · exact (simple_clear_atomic dumpOkC).2.1 _ rfl rfl

/-- C7.  TTL cache construction with a snapshot store: if the snapshot fails
to decode, or decodes to more entries than the (effective) capacity, the
cache starts with an empty mapping and used-count zero.  (`NewCache` is a
total function into `simple K V`: construction never returns an error — the
Go constructor's only signature is the cache itself.) -/
theorem simple_construction_snapshot {K V : Type} [DecidableEq K] (opts : Opts K V) (f : FileM K V)
    (hf : opts.File = some f) :
    (f.loadRes = LoadRes.decodeFailed → (NewCache opts).data = [] ∧ (NewCache opts).used = 0) ∧
    (∀ l, f.loadRes = LoadRes.entries l →
      (l.length : Int) > (if opts.Size > 0 then opts.Size else defaultSize) →
      (NewCache opts).data = [] ∧ (NewCache opts).used = 0) := by
  constructor
  · intro hl; simp [NewCache, hf, hl]
  · intro l hl hlen
    simp only [NewCache, hf, hl]
    rw [if_pos hlen]
    exact ⟨rfl, rfl⟩

/-- C7 witness: a decode failure and an oversize snapshot, both at capacity 1. -/
theorem simple_construction_snapshot_witness :
    (NewCache badDecodeOpts).data = [] ∧ (NewCache badDecodeOpts).used = 0 ∧
    (NewCache bigSnapOpts).data = [] ∧ (NewCache bigSnapOpts).used = 0 := by
  have h1 := (simple_construction_snapshot badDecodeOpts badDecodeFile rfl).1 rfl
  have h2 := (simple_construction_snapshot bigSnapOpts bigSnapFile rfl).2 _ rfl (by decide)
  exact ⟨h1.1, h1.2, h2.1, h2.2⟩

/-- C9.  TTL cache `Get` is side-effect-free: for every state and key the
returned state is the receiver itself — mapping, used-count, capacity and
TTL all unchanged, whether or not the key is present.  By contrast the LRU
cache's `Get` does mutate recency state: on a size-3 LRU cache holding keys
1 then 2 (`head = node 1`), `Get 1` moves key 1's node to the head
(`head = node 0`). -/
theorem simple_get_pure :
    (∀ (K V : Type) [DecidableEq K] (c : simple K V) (k : K), (simple.Get c k).2 = c) ∧
    lruPair.head = some 1 ∧
    (lru.Get lruPair 1).map (fun r => r.2.head) = some (some 0) := by
  refine ⟨?_, by decide, by decide⟩
  intro K V _ c k
  unfold simple.Get
  rcases lookupAL c.data k with _ | v <;> rfl

/-- C10.  TTL cache count consistency: `used` equals the number of map
entries (with the map's keys unique).  It holds after construction — the
decoded snapshot is a Go map, so its entries have unique keys, which the
hypothesis records — and is preserved by `Set`, `Get`, `Delete` and `Clear`. -/
theorem simple_count_consistency {K V : Type} [DecidableEq K] :
    (∀ opts : Opts K V,
      (∀ f l, opts.File = some f → f.loadRes = LoadRes.entries l → (keysAL l).Nodup) →
      (NewCache opts).countInv) ∧
    (∀ (c : simple K V) k v, c.countInv → (simple.Set c k v).1.countInv) ∧
    (∀ (c : simple K V) k, c.countInv → (simple.Get c k).2.countInv) ∧
    (∀ (c : simple K V) k, c.countInv → (simple.Delete c k).1.countInv) ∧
    (∀ c : simple K V, c.countInv → (simple.Clear c).1.countInv) := by
  refine ⟨?_, ?_, ?_, ?_, ?_⟩
  · intro opts hnd
    rcases hof : opts.File with _ | f
    · simp [NewCache, simple.countInv, hof, keysAL]
    · rcases hlr : f.loadRes with _ | _ | l
      · simp [NewCache, simple.countInv, hof, hlr, keysAL]
      · simp [NewCache, simple.countInv, hof, hlr, keysAL]
      · by_cases hlen : (l.length : Int) > (if opts.Size > 0 then opts.Size else defaultSize)
        · simp [NewCache, simple.countInv, hof, hlr, hlen, keysAL]
        · simp only [NewCache, simple.countInv, hof, hlr, if_neg hlen]
          exact ⟨by simp, hnd f l hof hlr⟩
  · intro c k v hc
    by_cases hfull : c.used ≥ c.size
    · have hs : simple.Set c k v = (c, some "cache is full") := by
        unfold simple.Set; rw [if_pos hfull]
      rw [hs]; exact hc
    · have h1 : (simple.Set c k v).1.data = insertAL c.data k v := by
        unfold simple.Set; rw [if_neg hfull]
      have h2 : (simple.Set c k v).1.used =
          (if (lookupAL c.data k).isSome then c.used else c.used + 1) := by
        unfold simple.Set; rw [if_neg hfull]
      refine ⟨?_, ?_⟩
      · rw [h1, h2]
        rcases ho : lookupAL c.data k with _ | a
        · rw [length_insertAL_of_absent c.data k v ho]
          simp only [Option.isSome_none, Bool.false_eq_true, if_false]
          have := hc.1
          omega
        · rw [length_insertAL_of_present c.data k v (by rw [ho]; rfl)]
          simp only [Option.isSome_some, if_true]
          exact hc.1
      · rw [h1]
        exact nodup_keysAL_insertAL c.data k v hc.2
  · intro c k hc
    unfold simple.Get
    rcases lookupAL c.data k with _ | v <;> exact hc
  · intro c k hc
    rcases ho : lookupAL c.data k with _ | a
    · simpa [simple.Delete, ho] using hc
    · have hlen := length_eraseAL_of_present c.data k (by simp [ho])
      refine ⟨?_, ?_⟩
      · simp only [simple.Delete, ho, hc.1]
        rw [show c.data.length = (eraseAL c.data k).length + 1 from hlen]
        push_cast
        ring
      · simp only [simple.Delete, ho]
        exact nodup_keysAL_eraseAL c.data k hc.2
  · intro c hc
    rcases hf : c.file with _ | f
    · simp [simple.Clear, hf, simple.countInv, keysAL]
    · rcases hd : f.dumpErr with _ | e
      · simp [simple.Clear, hf, hd, simple.countInv, keysAL]
      · simpa [simple.Clear, hf, hd] using hc

/-- C10 witness: the invariant holds for a concrete snapshot-loaded cache
and is carried across one call of each operation. -/
theorem simple_count_consistency_witness :
    (NewCache snapOpts3).countInv ∧
    (simple.Set dumpOkC 2 7).1.countInv ∧ (simple.Get dumpOkC 1).2.countInv ∧
    (simple.Delete dumpOkC 1).1.countInv ∧ (simple.Clear dumpOkC).1.countInv := by
  have hinv : dumpOkC.countInv := by decide
  refine ⟨?_, ?_, ?_, ?_, ?_⟩
  · exact (simple_count_consistency (K := Nat) (V := Nat)).1 _
      (by intro f l hf hl; cases hf; cases hl; decide)
  · exact (simple_count_consistency (K := Nat) (V := Nat)).2.1 dumpOkC 2 7 hinv
  · exact (simple_count_consistency (K := Nat) (V := Nat)).2.2.1 dumpOkC 1 hinv
  · exact (simple_count_consistency (K := Nat) (V := Nat)).2.2.2.1 dumpOkC 1 hinv
  · exact (simple_count_consistency (K := Nat) (V := Nat)).2.2.2.2 dumpOkC hinv

theorem hset_self {K V : Type} (h : Nat → Option (node K V)) (i : Nat) (n : node K V) :
    hset h i n i = some n := by
  simp [hset]

theorem hset_other {K V : Type} (h : Nat → Option (node K V)) (i j : Nat) (n : node K V)
    (hne : j ≠ i) : hset h i n j = h j := by
  simp [hset, hne]

theorem keysAL_cacheFrom {K V : Type} (xs : List (K × V)) (i : Nat) :
    keysAL (cacheFrom xs i) = xs.map Prod.fst := by
  induction xs generalizing i with
  | nil => simp [cacheFrom, keysAL]
  | cons p rest ih =>
    obtain ⟨k, v⟩ := p
    simp [cacheFrom, keysAL] at ih ⊢
    exact ih (i + 1)

theorem cacheFrom_append {K V : Type} (xs ys : List (K × V)) (i : Nat) :
    cacheFrom (xs ++ ys) i = cacheFrom xs i ++ cacheFrom ys (i + xs.length) := by
  induction xs generalizing i with
  | nil => simp [cacheFrom]
  | cons p rest ih =>
    obtain ⟨k, v⟩ := p
    show (k, i) :: cacheFrom (rest ++ ys) (i + 1) =
      ((k, i) :: cacheFrom rest (i + 1)) ++ cacheFrom ys (i + (rest.length + 1))
    rw [ih (i + 1), show i + (rest.length + 1) = i + 1 + rest.length from by omega]
    simp

theorem mkClean_nil {K V : Type} (sz : Int) :
    mkClean sz ([] : List (K × V)) = NewLRUCache K V sz := by
  ext <;> simp [mkClean, NewLRUCache, cacheFrom, cleanHeap]

theorem set_on_empty_head {K V : Type} [DecidableEq K] (l : lru K V) (k : K) (v : V)
    (hl : lookupAL l.cache k = none) (hh : l.head = none) (hg : ¬ (l.used + 1 > l.size)) :
    lru.Set l k v = some { l with
      heap := hset l.heap l.nextId { value := v, key := k, next := none, prev := none },
      nextId := l.nextId + 1, head := some l.nextId, tail := some l.nextId,
      cache := insertAL l.cache k l.nextId, used := l.used + 1 } := by
  simp only [lru.Set, hl, lru.unshift, hh]
  rw [if_neg hg]

theorem set_on_head_new {K V : Type} [DecidableEq K] (l : lru K V) (k : K) (v : V) (hd : Nat)
    (hn : node K V) (hl : lookupAL l.cache k = none) (hh : l.head = some hd)
    (hhd : hd ≠ l.nextId) (hheap : l.heap hd = some hn) :
    lru.Set l k v =
      if l.used + 1 > l.size
      then match lru.pop (afterUnshift l k v hd hn) with
           | none => none
           | some l4 => some { l4 with used := l4.used - 1 }
      else some (afterUnshift l k v hd hn) := by
  simp only [lru.Set, hl, lru.unshift, hh, hset_self, hset_other _ _ _ _ hhd, hheap, afterUnshift]

theorem afterUnshift_clean {K V : Type} [DecidableEq K] (sz u : Int) (tl : Option Nat)
    (kvs : List (K × V)) (cch : List (K × Nat)) (k : K) (v : V) (p : K × V) (e : Nat)
    (hm : 0 < kvs.length) (he : e < kvs.length)
    (hp : kvs[kvs.length - 1]? = some p)
    (hk : lookupAL cch k = none) :
    afterUnshift
      { size := sz, used := u, head := some (kvs.length - 1), tail := tl, cache := cch,
        heap := cleanHeap kvs e, nextId := kvs.length } k v (kvs.length - 1)
      { value := p.2, key := p.1,
        next := if kvs.length - 1 ≤ e then none else some (kvs.length - 1 - 1), prev := none } =
    { size := sz, used := u + 1, head := some kvs.length, tail := tl,
      cache := cch ++ [(k, kvs.length)],
      heap := cleanHeap (kvs ++ [(k, v)]) e, nextId := kvs.length + 1 } := by
  unfold afterUnshift
  dsimp only
  have hcache : insertAL cch k kvs.length = cch ++ [(k, kvs.length)] :=
    insertAL_of_absent cch k _ hk
  have hheap : hset (hset (hset (cleanHeap kvs e) kvs.length
        { value := v, key := k, next := none, prev := none }) kvs.length
        { value := v, key := k, next := some (kvs.length - 1), prev := none }) (kvs.length - 1)
        { value := p.2, key := p.1,
          next := if kvs.length - 1 ≤ e then none else some (kvs.length - 1 - 1),
          prev := some kvs.length } =
      cleanHeap (kvs ++ [(k, v)]) e := by
    funext j
    rcases eq_or_ne j (kvs.length - 1) with hj | hj
    · subst hj
      rw [hset_self]
      simp only [cleanHeap]
      rw [List.getElem?_append_left (by omega : kvs.length - 1 < kvs.length), hp]
      simp only [Option.map_some']
      rw [List.length_append, List.length_singleton]
      rw [if_neg (by omega : ¬ (kvs.length - 1 + 1 = kvs.length + 1)),
        show kvs.length - 1 + 1 = kvs.length from by omega]
    · rcases eq_or_ne j kvs.length with hjm | hjm
      · subst hjm
        rw [hset_other _ _ _ _ hj, hset_self]
        simp only [cleanHeap]
        rw [List.getElem?_concat_length]
        simp only [Option.map_some']
        rw [List.length_append, List.length_singleton]
        rw [if_neg (by omega : ¬ (kvs.length ≤ e)), if_pos rfl]
      · rw [hset_other _ _ _ _ hj, hset_other _ _ _ _ hjm, hset_other _ _ _ _ hjm]
        simp only [cleanHeap]
        rcases lt_or_ge j kvs.length with hjlt | hjge
        · rw [List.getElem?_append_left hjlt]
          rcases hgj : kvs[j]? with _ | kvj
          · rfl
          · simp only [Option.map_some']
            rw [List.length_append, List.length_singleton]
            rw [if_neg (by omega : ¬ (j + 1 = kvs.length)),
              if_neg (by omega : ¬ (j + 1 = kvs.length + 1))]
        · rw [List.getElem?_eq_none hjge,
            List.getElem?_eq_none (by rw [List.length_append, List.length_singleton]; omega)]
          rfl
  rw [hcache, hheap]

theorem pop_clean {K V : Type} [DecidableEq K] (sz u : Int) (hd : Option Nat)
    (xs : List (K × V)) (e : Nat) (q : K × V) (rest : List (K × Nat)) (nid : Nat)
    (he : e + 1 < xs.length) (hq : xs[e]? = some q) :
    lru.pop { size := sz, used := u, head := hd, tail := some e,
              cache := (q.1, e) :: rest, heap := cleanHeap xs e, nextId := nid } =
    some { size := sz, used := u, head := hd, tail := some (e + 1),
           cache := rest, heap := cleanHeap xs (e + 1), nextId := nid } := by
  rcases hrx : xs[e+1]? with _ | r
  · exfalso
    rw [List.getElem?_eq_none_iff] at hrx
    omega
  · have h1 : cleanHeap xs e e =
        some { value := q.2, key := q.1, next := none, prev := some (e + 1) } := by
      simp only [cleanHeap, hq, Option.map_some']
      rw [if_pos (le_refl e), if_neg (by omega : ¬ (e + 1 = xs.length))]
    have h2 : cleanHeap xs e (e + 1) = some { value := r.2, key := r.1, next := some e, prev := if e + 1 + 1 = xs.length then none else some (e + 1 + 1) } := by
      simp only [cleanHeap, hrx, Option.map_some']
      rw [if_neg (by omega : ¬ (e + 1 ≤ e))]
      simp
    have h3 : hset (cleanHeap xs e) (e + 1) { value := r.2, key := r.1, next := none, prev := if e + 1 + 1 = xs.length then none else some (e + 1 + 1) } = cleanHeap xs (e + 1) := by
      funext j
      rcases eq_or_ne j (e + 1) with hj | hj
      · subst hj
        rw [hset_self]
        simp only [cleanHeap, hrx, Option.map_some']
        rw [if_pos (le_refl (e + 1))]
      · rw [hset_other _ _ _ _ hj]
        simp only [cleanHeap]
        rcases hgj : xs[j]? with _ | kvj
        · rfl
        · simp only [Option.map_some']
          have hnx : (if j ≤ e then (none : Option Nat) else some (j - 1)) =
              (if j ≤ e + 1 then none else some (j - 1)) := by
            split_ifs <;> first | rfl | omega
          rw [hnx]
    simp only [lru.pop, h1, h2, eraseAL, if_pos rfl, if_true]
    rw [h3]

theorem drop_eq_cons_of_getElem {α : Type} (xs : List α) (n : Nat) (q : α)
    (h : xs[n]? = some q) : xs.drop n = q :: xs.drop (n + 1) := by
  have hn : n < xs.length := by
    by_contra hcon
    rw [List.getElem?_eq_none (by omega)] at h
    exact absurd h (by simp)
  rw [List.drop_eq_getElem_cons hn]
  rw [List.getElem?_eq_getElem hn] at h
  rw [Option.some_inj] at h
  rw [h]

theorem set_clean {K V : Type} [DecidableEq K] (sz : Int) (hsz : 1 ≤ sz)
    (kvs : List (K × V)) (k : K) (v : V) (hk : k ∉ kvs.map Prod.fst) :
    lru.Set (mkClean sz kvs) k v = some (mkClean sz (kvs ++ [(k, v)])) := by
  have hszN : ((sz.toNat : Int)) = sz := Int.toNat_of_nonneg (by omega)
  have hN : 1 ≤ sz.toNat := by omega
  have h_lookup : lookupAL (mkClean sz kvs).cache k = none := by
    rw [lookupAL_eq_none_iff]
    show k ∉ keysAL (cacheFrom (kvs.drop (kvs.length - sz.toNat)) (kvs.length - sz.toNat))
    rw [keysAL_cacheFrom]
    intro hmem
    rw [List.mem_map] at hmem
    obtain ⟨x, hx, hfx⟩ := hmem
    exact hk (List.mem_map.mpr ⟨x, List.drop_subset _ _ hx, hfx⟩)
  rcases Nat.eq_zero_or_pos kvs.length with hm | hm
  · have hkvs : kvs = [] := List.length_eq_zero.mp hm
    subst hkvs
    have hh : (mkClean sz ([] : List (K × V))).head = none := by simp [mkClean]
    have hg : ¬ ((mkClean sz ([] : List (K × V))).used + 1 >
        (mkClean sz ([] : List (K × V))).size) := by
      simp only [mkClean, List.length_nil]
      simp
      omega
    rw [set_on_empty_head _ _ _ h_lookup hh hg]
    have h10 : 1 - sz.toNat = 0 := by omega
    apply congrArg some
    simp only [mkClean, List.length_nil, List.length_cons, List.drop_nil, cacheFrom,
      List.nil_append, h10, List.drop_zero]
    simp only [lru.mk.injEq]
    refine ⟨by trivial, by simp, by simp, by simp, by simp [insertAL, cacheFrom], ?_, by simp⟩
    funext j
    rcases j with _ | j
    · simp [hset, cleanHeap]
    · simp [hset, cleanHeap]
  · have hm1 : kvs.length - 1 < kvs.length := by omega
    obtain ⟨p, hp⟩ : ∃ p, kvs[kvs.length - 1]? = some p :=
      ⟨_, List.getElem?_eq_getElem hm1⟩
    have hne0 : ¬ (kvs.length = 0) := by omega
    have hh : (mkClean sz kvs).head = some (kvs.length - 1) := by
      simp only [mkClean]
      rw [if_neg hne0]
    have hheap : (mkClean sz kvs).heap (kvs.length - 1) = some { value := p.2, key := p.1, next := if kvs.length - 1 ≤ kvs.length - sz.toNat then none else some (kvs.length - 1 - 1), prev := none } := by
      show cleanHeap kvs (kvs.length - sz.toNat) (kvs.length - 1) = _
      simp only [cleanHeap, hp, Option.map_some']
      rw [if_pos (by omega : kvs.length - 1 + 1 = kvs.length)]
    have hhd : kvs.length - 1 ≠ (mkClean sz kvs).nextId := by
      show kvs.length - 1 ≠ kvs.length
      omega
    have h_lookup2 : lookupAL (cacheFrom (kvs.drop (kvs.length - sz.toNat)) (kvs.length - sz.toNat)) k = none := h_lookup
    rw [set_on_head_new _ k v _ _ h_lookup hh hhd hheap]
    simp only [mkClean, if_neg hne0]
    rw [afterUnshift_clean sz ((kvs.length - (kvs.length - sz.toNat) : Nat) : Int)
      (some (kvs.length - sz.toNat)) kvs
      (cacheFrom (kvs.drop (kvs.length - sz.toNat)) (kvs.length - sz.toNat)) k v p
      (kvs.length - sz.toNat) hm (by omega) hp h_lookup2]
    rcases lt_or_ge kvs.length sz.toNat with hcase | hcase
    · have hgrow : ¬ (((kvs.length - (kvs.length - sz.toNat) : Nat) : Int) + 1 > sz) := by
        omega
      rw [if_neg hgrow]
      apply congrArg some
      have e0 : kvs.length - sz.toNat = 0 := by omega
      have e0' : kvs.length + 1 - sz.toNat = 0 := by omega
      simp only [mkClean, List.length_append, List.length_singleton, e0, e0', List.drop_zero]
      simp only [lru.mk.injEq]
      refine ⟨by trivial, by push_cast; omega, by simp, by simp, ?_, by trivial, by trivial⟩
      rw [cacheFrom_append]
      simp [cacheFrom]
    · have hevict : (((kvs.length - (kvs.length - sz.toNat) : Nat) : Int) + 1 > sz) := by
        omega
      rw [if_pos hevict]
      obtain ⟨⟨q1, q2⟩, hq⟩ : ∃ qq, kvs[kvs.length - sz.toNat]? = some qq :=
        ⟨_, List.getElem?_eq_getElem (by omega)⟩
      rw [drop_eq_cons_of_getElem kvs (kvs.length - sz.toNat) (q1, q2) hq]
      simp only [cacheFrom, List.cons_append]
      have hq' : (kvs ++ [(k, v)])[kvs.length - sz.toNat]? = some (q1, q2) := by
        rw [List.getElem?_append_left (by omega)]
        exact hq
      rw [pop_clean sz (((kvs.length - (kvs.length - sz.toNat) : Nat) : Int) + 1)
        (some kvs.length) (kvs ++ [(k, v)]) (kvs.length - sz.toNat) (q1, q2)
        (cacheFrom (kvs.drop (kvs.length - sz.toNat + 1)) (kvs.length - sz.toNat + 1) ++ [(k, kvs.length)])
        (kvs.length + 1)
        (by rw [List.length_append, List.length_singleton]; omega) hq']
      apply congrArg some
      simp only [List.length_append, List.length_singleton]
      rw [if_neg (by omega : ¬ (kvs.length + 1 = 0))]
      simp only [lru.mk.injEq]
      refine ⟨by trivial, by omega, by simp, by simp; omega, ?_, ?_, by trivial⟩
      · rw [show kvs.length + 1 - sz.toNat = kvs.length - sz.toNat + 1 from by omega,
          List.drop_append_of_le_length (by omega), cacheFrom_append, List.length_drop,
          show kvs.length - sz.toNat + 1 + (kvs.length - (kvs.length - sz.toNat + 1)) = kvs.length from by omega]
        simp [cacheFrom]
      · rw [show kvs.length - sz.toNat + 1 = kvs.length + 1 - sz.toNat from by omega]

theorem runSets_clean {K V : Type} [DecidableEq K] (sz : Int) (hsz : 1 ≤ sz)
    (ops : List (K × V)) :
    ∀ kvs : List (K × V), ((kvs ++ ops).map Prod.fst).Nodup →
    runSets (mkClean sz kvs) ops = some (mkClean sz (kvs ++ ops)) := by
  induction ops with
  | nil =>
    intro kvs h
    simp [runSets]
  | cons op rest ih =>
    intro kvs h
    obtain ⟨k, v⟩ := op
    have hk : k ∉ kvs.map Prod.fst := by
      intro hmem
      rw [List.map_append, List.nodup_append] at h
      exact h.2.2 hmem (by simp)
    simp only [runSets]
    rw [set_clean sz hsz kvs k v hk]
    have hres := ih (kvs ++ [(k, v)]) (by simpa [List.append_assoc] using h)
    simpa [List.append_assoc] using hres

theorem set_fresh_fault {K V : Type} [DecidableEq K] (sz : Int) (hsz : sz < 1)
    (k : K) (v : V) : lru.Set (NewLRUCache K V sz) k v = none := by
  simp only [lru.Set, NewLRUCache, lookupAL, lru.unshift]
  rw [if_pos (by omega : (0 : Int) + 1 > sz)]
  simp [lru.pop, hset]

/-- C5.  LRU recency invariant: on a fresh cache of capacity `sz`, a
`Set`-only run with pairwise-distinct keys that is longer than the capacity
leaves the hash index holding exactly the last `sz` keys inserted (listed in
insertion order).  Distinct fresh keys always take `Set`'s new-key path, so
the list stays well formed and every eviction removes the oldest live key. -/
theorem lru_recency_invariant {K V : Type} [DecidableEq K] (sz : Int) (ops : List (K × V))
    (s : lru K V) (hnd : (ops.map Prod.fst).Nodup) (hlen : sz < (ops.length : Int))
    (hrun : runSets (NewLRUCache K V sz) ops = some s) :
    keysAL s.cache = (ops.map Prod.fst).drop (ops.length - sz.toNat) := by
  rcases lt_or_ge sz 1 with hsz | hsz
  · rcases ops with _ | ⟨⟨k, v⟩, rest⟩
    · simp only [runSets, Option.some_inj] at hrun
      subst hrun
      simp [NewLRUCache, keysAL]
    · exfalso
      have hfault := set_fresh_fault sz hsz k v
      simp [runSets, hfault] at hrun
  · have h1 := runSets_clean sz hsz ops [] (by simpa using hnd)
    rw [mkClean_nil] at h1
    simp only [List.nil_append] at h1
    rw [h1, Option.some_inj] at hrun
    subst hrun
    show keysAL (cacheFrom (ops.drop (ops.length - sz.toNat)) (ops.length - sz.toNat)) = _
    rw [keysAL_cacheFrom, List.map_drop]

/-- C5 witness: capacity 2, three distinct keys 1,2,3; the live key set after
the run is exactly the last two keys, `[2, 3]`. -/
theorem lru_recency_invariant_witness :
    keysAL (((runSets (NewLRUCache Nat Nat 2) [(1, 10), (2, 20), (3, 30)]).getD
      (NewLRUCache Nat Nat 2)).cache) = [2, 3] := by
  have h := lru_recency_invariant 2 [(1, 10), (2, 20), (3, 30)]
    ((runSets (NewLRUCache Nat Nat 2) [(1, 10), (2, 20), (3, 30)]).getD
      (NewLRUCache Nat Nat 2)) (by decide) (by decide) (by rfl)
  exact h.trans (by decide)

theorem prevOf_hset_self {K V : Type} (h : Nat → Option (node K V)) (i : Nat) (n : node K V) :
    prevOf (hset h i n) i = n.prev := by
  simp [prevOf, hset]

theorem prevOf_hset_other {K V : Type} (h : Nat → Option (node K V)) (i j : Nat)
    (n : node K V) (hne : j ≠ i) : prevOf (hset h i n) j = prevOf h j := by
  simp [prevOf, hset, hne]

theorem lookupAL_append_of_some {K A : Type} [DecidableEq K] (xs ys : List (K × A)) (k : K)
    (a : A) (h : lookupAL xs k = some a) : lookupAL (xs ++ ys) k = some a := by
  induction xs with
  | nil => simp [lookupAL] at h
  | cons p rest ih =>
    obtain ⟨k', a'⟩ := p
    by_cases hk : k = k'
    · simp [lookupAL, hk] at h ⊢
      exact h
    · simp [lookupAL, hk] at h ⊢
      exact ih h

theorem lookupAL_append_of_none {K A : Type} [DecidableEq K] (xs ys : List (K × A)) (k : K)
    (h : lookupAL xs k = none) : lookupAL (xs ++ ys) k = lookupAL ys k := by
  induction xs with
  | nil => simp
  | cons p rest ih =>
    obtain ⟨k', a'⟩ := p
    by_cases hk : k = k'
    · simp [lookupAL, hk] at h
    · simp [lookupAL, hk] at h ⊢
      exact ih h

theorem linked_tail {K V : Type} (h : Nat → Option (node K V)) (a : Nat) (rest : List Nat)
    (hl : linked h (a :: rest)) : linked h rest := by
  rcases rest with _ | ⟨b, rest'⟩
  · trivial
  · exact hl.2

theorem linked_congr_all {K V : Type} (h h' : Nat → Option (node K V)) :
    ∀ cs : List Nat, (∀ a ∈ cs, prevOf h' a = prevOf h a) → linked h cs → linked h' cs := by
  intro cs
  induction cs with
  | nil => intro _ _; trivial
  | cons a rest ih =>
    intro hagree hl
    rcases rest with _ | ⟨b, rest'⟩
    · trivial
    · refine ⟨?_, ih (fun x hx => hagree x (List.mem_cons_of_mem a hx)) hl.2⟩
      rw [hagree a (List.mem_cons_self a _)]
      exact hl.1

theorem linked_congr_except_last {K V : Type} (h h' : Nat → Option (node K V)) :
    ∀ cs : List Nat, cs.Nodup → ∀ b, cs.getLast? = some b →
    (∀ a ∈ cs, a ≠ b → prevOf h' a = prevOf h a) → linked h cs → linked h' cs := by
  intro cs
  induction cs with
  | nil => intro _ b hb _ _; simp at hb
  | cons a rest ih =>
    intro hnd b hb hagree hl
    rcases rest with _ | ⟨c, rest'⟩
    · trivial
    · have hb' : (c :: rest').getLast? = some b := by
        rw [List.getLast?_cons_cons] at hb
        exact hb
      have hab : a ≠ b := by
        intro hcon
        subst hcon
        have : a ∈ c :: rest' := List.mem_of_mem_getLast? hb'
        exact (List.nodup_cons.mp hnd).1 this
      refine ⟨?_, ih (List.nodup_cons.mp hnd).2 b hb'
        (fun x hx hxb => hagree x (List.mem_cons_of_mem a hx) hxb) hl.2⟩
      rw [hagree a (List.mem_cons_self a _) hab]
      exact hl.1

theorem linked_extend {K V : Type} (h h' : Nat → Option (node K V)) :
    ∀ cs : List Nat, cs.Nodup → ∀ b x, cs.getLast? = some b →
    (∀ a ∈ cs, a ≠ b → prevOf h' a = prevOf h a) → prevOf h' b = some x →
    linked h cs → linked h' (cs ++ [x]) := by
  intro cs
  induction cs with
  | nil => intro _ b x hb _ _ _; simp at hb
  | cons a rest ih =>
    intro hnd b x hb hagree hx hl
    rcases rest with _ | ⟨c, rest'⟩
    · simp only [List.getLast?_singleton, Option.some_inj] at hb
      subst hb
      exact ⟨hx, trivial⟩
    · have hb' : (c :: rest').getLast? = some b := by
        rw [List.getLast?_cons_cons] at hb
        exact hb
      have hab : a ≠ b := by
        intro hcon
        subst hcon
        exact (List.nodup_cons.mp hnd).1 (List.mem_of_mem_getLast? hb')
      refine ⟨?_, ih (List.nodup_cons.mp hnd).2 b x hb'
        (fun y hy hyb => hagree y (List.mem_cons_of_mem a hy) hyb) hx hl.2⟩
      rw [hagree a (List.mem_cons_self a _) hab]
      exact hl.1

theorem linked_prefix_close {K V : Type} (h : Nat → Option (node K V)) (x : Nat)
    (suf : List Nat) : ∀ pre : List Nat, linked h (pre ++ x :: suf) → linked h (pre ++ [x]) := by
  intro pre
  induction pre with
  | nil => intro _; trivial
  | cons a pre' ih =>
    intro hl
    rcases pre' with _ | ⟨c, pre''⟩
    · exact ⟨hl.1, trivial⟩
    · exact ⟨hl.1, ih hl.2⟩

theorem prevOf_eq_some {K V : Type} (h : Nat → Option (node K V)) (a b : Nat)
    (hp : prevOf h a = some b) : ∃ n, h a = some n ∧ n.prev = some b := by
  unfold prevOf at hp
  rcases hh : h a with _ | n
  · rw [hh] at hp; cases hp
  · rw [hh] at hp
    exact ⟨n, rfl, hp⟩

theorem mem_eraseAL {K A : Type} [DecidableEq K] (l : List (K × A)) (k : K) (p : K × A)
    (h : p ∈ eraseAL l k) : p ∈ l := by
  induction l with
  | nil => simp [eraseAL] at h
  | cons q rest ih =>
    obtain ⟨k0, a0⟩ := q
    by_cases hk : k = k0
    · simp only [eraseAL, hk, if_pos rfl] at h
      exact List.mem_cons_of_mem _ h
    · simp only [eraseAL, hk, if_false] at h
      rcases List.mem_cons.mp h with h1 | h1
      · exact h1 ▸ List.mem_cons_self _ _
      · exact List.mem_cons_of_mem _ (ih h1)

theorem nodup_concat_of {α : Type} {a : α} {cs : List α} (hnd : cs.Nodup) (hx : a ∉ cs) :
    (cs ++ [a]).Nodup := by
  rw [List.nodup_append]
  exact ⟨hnd, List.nodup_singleton a, fun x hxm hxs => by
    simp at hxs
    subst hxs
    exact hx hxm⟩

theorem pop_unfold {K V : Type} [DecidableEq K] (l : lru K V) (t : Nat) (tn : node K V)
    (p : Nat) (pn : node K V) (ht : l.tail = some t) (htn : l.heap t = some tn)
    (hp : tn.prev = some p) (hpn : l.heap p = some pn) :
    lru.pop l =
      some
        { l with
          cache := eraseAL l.cache tn.key,
          heap := hset l.heap p { pn with next := none },
          tail := some p } := by
  simp only [lru.pop, ht, htn, hp, hpn]

theorem set_existing_ne {K V : Type} [DecidableEq K] (l : lru K V) (k : K) (v : V)
    (x hd : Nat) (n hn2 : node K V)
    (hl : lookupAL l.cache k = some x) (hn : l.heap x = some n)
    (hh : l.head = some hd) (hne : hd ≠ x) (hhd : l.heap hd = some hn2) :
    lru.Set l k v =
      some
        { l with
          heap := hset (hset (hset l.heap x { n with value := v }) x
              { n with value := v, next := some hd }) hd { hn2 with prev := some x },
          head := some x } := by
  simp only [lru.Set, hl, hn, lru.unshift, hh, hset_self, hset_other _ _ _ _ hne, hhd]

theorem set_existing_self {K V : Type} [DecidableEq K] (l : lru K V) (k : K) (v : V)
    (x : Nat) (n : node K V)
    (hl : lookupAL l.cache k = some x) (hn : l.heap x = some n) (hh : l.head = some x) :
    lru.Set l k v =
      some
        { l with
          heap := hset (hset (hset l.heap x { n with value := v }) x
              { n with value := v, next := some x }) x
              { n with value := v, next := some x, prev := some x },
          head := some x } := by
  simp only [lru.Set, hl, hn, lru.unshift, hh, hset_self]

theorem set_on_empty_head_full {K V : Type} [DecidableEq K] (l : lru K V) (k : K) (v : V)
    (hl : lookupAL l.cache k = none) (hh : l.head = none) (hg : l.used + 1 > l.size) :
    lru.Set l k v = none := by
  simp only [lru.Set, hl, lru.unshift, hh]
  rw [if_pos hg]
  simp [lru.pop, hset]

theorem set_new_preserves_InvL {K V : Type} [DecidableEq K] (l l' : lru K V) (k : K) (v : V)
    (hcount : l.used = (l.cache.length : Int)) (hnodup : (keysAL l.cache).Nodup)
    (hwf : ∀ p ∈ l.cache, (∃ n, l.heap p.2 = some n ∧ n.key = p.1) ∧ p.2 < l.nextId)
    (hshape : (l.used = 0 ∧ l.head = none ∧ l.tail = none ∧ l.cache = []) ∨
      (1 ≤ l.used ∧ l.used ≤ l.size ∧
       ∃ t cs hd, l.tail = some t ∧ l.head = some hd ∧
         (t :: cs).getLast? = some hd ∧ chainOK l (t :: cs)))
    (hlk : lookupAL l.cache k = none) (hs : lru.Set l k v = some l') :
    InvL l' ∧ 1 ≤ l'.used := by
  rcases hshape with ⟨hu0, hh0, ht0, hc0⟩ | ⟨hu1, hus, t, cs, hd, ht, hh, hlast, hchain⟩
  · by_cases hg : l.used + 1 > l.size
    · rw [set_on_empty_head_full l k v hlk hh0 hg] at hs
      cases hs
    · rw [set_on_empty_head l k v hlk hh0 hg, Option.some_inj] at hs
      subst hs
      refine ⟨⟨?_, ?_, ?_, ?_⟩, by show 1 ≤ l.used + 1; omega⟩
      · show l.used + 1 = ((insertAL l.cache k l.nextId).length : Int)
        rw [hc0]
        simp [insertAL]
        omega
      · show (keysAL (insertAL l.cache k l.nextId)).Nodup
        rw [hc0]
        simp [insertAL, keysAL]
      · intro p hp
        rw [hc0] at hp
        simp only [insertAL, List.mem_singleton] at hp
        subst hp
        exact ⟨⟨_, hset_self _ _ _, rfl⟩, by show l.nextId < l.nextId + 1; omega⟩
      · refine Or.inr ⟨by show 1 ≤ l.used + 1; omega, by show l.used + 1 ≤ l.size; omega,
          l.nextId, [], l.nextId, rfl, rfl, by simp, ?_, by simp, ?_⟩
        · show linked _ [l.nextId]
          trivial
        · intro c hc
          simp only [List.mem_singleton] at hc
          subst hc
          refine ⟨⟨_, hset_self _ _ _, ?_⟩, by show l.nextId < l.nextId + 1; omega⟩
          show lookupAL (insertAL l.cache k l.nextId) k = some l.nextId
          rw [hc0]
          simp [insertAL, lookupAL]
  · obtain ⟨hlink, hnd, hcanon⟩ := hchain
    have hhdmem : hd ∈ t :: cs := List.mem_of_mem_getLast? hlast
    obtain ⟨⟨hn, hheaphd, hlkhd⟩, hhdlt⟩ := hcanon hd hhdmem
    rw [set_on_head_new l k v hd hn hlk hh (by omega) hheaphd] at hs
    have hAcache : (afterUnshift l k v hd hn).cache = l.cache ++ [(k, l.nextId)] :=
      insertAL_of_absent _ _ _ hlk
    have hAheap : (afterUnshift l k v hd hn).heap =
        hset (hset (hset l.heap l.nextId { value := v, key := k, next := none, prev := none })
          l.nextId { value := v, key := k, next := some hd, prev := none })
          hd { hn with prev := some l.nextId } := rfl
    have hH_nid : (afterUnshift l k v hd hn).heap l.nextId =
        some { value := v, key := k, next := some hd, prev := none } := by
      rw [hAheap, hset_other _ _ _ _ (by omega : l.nextId ≠ hd), hset_self]
    have hH_hd : (afterUnshift l k v hd hn).heap hd = some { hn with prev := some l.nextId } := by
      rw [hAheap, hset_self]
    have hH_other : ∀ j, j ≠ hd → j ≠ l.nextId →
        (afterUnshift l k v hd hn).heap j = l.heap j := by
      intro j hj1 hj2
      rw [hAheap, hset_other _ _ _ _ hj1, hset_other _ _ _ _ hj2, hset_other _ _ _ _ hj2]
    have hlinkA : linked (afterUnshift l k v hd hn).heap ((t :: cs) ++ [l.nextId]) := by
      refine linked_extend l.heap _ (t :: cs) hnd hd l.nextId hlast ?_ ?_ hlink
      · intro a ha hane
        have halt : a < l.nextId := (hcanon a ha).2
        rw [hAheap, prevOf_hset_other _ _ _ _ hane,
          prevOf_hset_other _ _ _ _ (by omega : a ≠ l.nextId),
          prevOf_hset_other _ _ _ _ (by omega : a ≠ l.nextId)]
      · rw [hAheap, prevOf_hset_self]
    have hnidchain : l.nextId ∉ t :: cs := by
      intro hmem
      have := (hcanon _ hmem).2
      omega
    have hndA : ((t :: cs) ++ [l.nextId]).Nodup := nodup_concat_of hnd hnidchain
    have hcanonA : ∀ c ∈ (t :: cs) ++ [l.nextId],
        canonicalNode (afterUnshift l k v hd hn).heap (afterUnshift l k v hd hn).cache c ∧
        c < (afterUnshift l k v hd hn).nextId := by
      intro c hc
      rcases List.mem_append.mp hc with hcm | hcm
      · obtain ⟨⟨nc, hnc, hlc⟩, hclt⟩ := hcanon c hcm
        by_cases hchd : c = hd
        · subst hchd
          have hne : nc = hn := by
            rw [hnc] at hheaphd
            exact Option.some_inj.mp hheaphd
          subst hne
          refine ⟨⟨{ nc with prev := some l.nextId }, hH_hd, ?_⟩,
            by show c < l.nextId + 1; omega⟩
          rw [hAcache]
          exact lookupAL_append_of_some _ _ _ _ hlc
        · refine ⟨⟨nc, ?_, ?_⟩, by show c < l.nextId + 1; omega⟩
          · rw [hH_other c hchd (by omega)]
            exact hnc
          · rw [hAcache]
            exact lookupAL_append_of_some _ _ _ _ hlc
      · simp only [List.mem_singleton] at hcm
        subst hcm
        refine ⟨⟨_, hH_nid, ?_⟩, by show l.nextId < l.nextId + 1; omega⟩
        show lookupAL (afterUnshift l k v hd hn).cache k = some l.nextId
        rw [hAcache, lookupAL_append_of_none _ _ _ hlk]
        simp [lookupAL]
    have hcountA : (afterUnshift l k v hd hn).used =
        ((afterUnshift l k v hd hn).cache.length : Int) := by
      show l.used + 1 = _
      rw [hAcache]
      simp
      omega
    have hnodupA : (keysAL (afterUnshift l k v hd hn).cache).Nodup := by
      rw [hAcache]
      show (keysAL (l.cache ++ [(k, l.nextId)])).Nodup
      have : keysAL (l.cache ++ [(k, l.nextId)]) = keysAL l.cache ++ [k] := by
        simp [keysAL]
      rw [this]
      exact nodup_concat_of hnodup ((lookupAL_eq_none_iff _ _).mp hlk)
    have hwfA : ∀ p ∈ (afterUnshift l k v hd hn).cache,
        (∃ n, (afterUnshift l k v hd hn).heap p.2 = some n ∧ n.key = p.1) ∧
        p.2 < (afterUnshift l k v hd hn).nextId := by
      intro q hq
      rw [hAcache] at hq
      rcases List.mem_append.mp hq with hqm | hqm
      · obtain ⟨⟨nq, hnq, hkq⟩, hqlt⟩ := hwf q hqm
        by_cases hqhd : q.2 = hd
        · refine ⟨⟨{ hn with prev := some l.nextId }, ?_, ?_⟩,
            by show q.2 < l.nextId + 1; omega⟩
          · rw [hqhd]; exact hH_hd
          · show hn.key = q.1
            rw [hqhd] at hnq
            rw [hnq] at hheaphd
            rw [← (Option.some_inj.mp hheaphd)]
            exact hkq
        · refine ⟨⟨nq, ?_, hkq⟩, by show q.2 < l.nextId + 1; omega⟩
          rw [hH_other q.2 hqhd (by omega)]
          exact hnq
      · simp only [List.mem_singleton] at hqm
        subst hqm
        exact ⟨⟨_, hH_nid, rfl⟩, by show l.nextId < l.nextId + 1; omega⟩
    by_cases hg : l.used + 1 > l.size
    · rw [if_pos hg] at hs
      obtain ⟨p, rest2, hrest⟩ : ∃ p rest2, cs ++ [l.nextId] = p :: rest2 := by
        rcases cs with _ | ⟨c1, cs'⟩
        · exact ⟨l.nextId, [], rfl⟩
        · exact ⟨c1, cs' ++ [l.nextId], rfl⟩
      have hlinkA2 : linked (afterUnshift l k v hd hn).heap (t :: p :: rest2) := by
        have := hlinkA
        rw [List.cons_append, hrest] at this
        exact this
      obtain ⟨tn, htn, htnprev⟩ := prevOf_eq_some _ _ _ hlinkA2.1
      have hpmem : p ∈ (t :: cs) ++ [l.nextId] := by
        rw [List.cons_append, hrest]
        exact List.mem_cons_of_mem _ (List.mem_cons_self _ _)
      obtain ⟨⟨pn, hpn, hlp⟩, hplt⟩ := hcanonA p hpmem
      rw [pop_unfold (afterUnshift l k v hd hn) t tn p pn ht htn htnprev hpn] at hs
      have htmem : t ∈ (t :: cs) ++ [l.nextId] := List.mem_cons_self _ _
      obtain ⟨⟨tnc, htnc, hltc⟩, htlt⟩ := hcanonA t htmem
      have htn_eq : tnc = tn := by
        rw [htnc] at htn
        exact Option.some_inj.mp htn
      rw [htn_eq] at hltc
      injection hs with hs
      subst hs
      constructor
      constructor
      · show l.used + 1 - 1 = ((eraseAL (afterUnshift l k v hd hn).cache tn.key).length : Int)
        rw [hAcache]
        have hL := length_eraseAL_of_present (l.cache ++ [(k, l.nextId)]) tn.key
          (by rw [← hAcache, hltc]; rfl)
        simp only [List.length_append, List.length_singleton] at hL
        omega
      constructor
      · exact nodup_keysAL_eraseAL _ _ hnodupA
      constructor
      · intro q hq
        have hq2 := mem_eraseAL _ _ _ hq
        obtain ⟨⟨nq, hnq, hkq⟩, hqlt⟩ := hwfA q hq2
        by_cases hqp : q.2 = p
        · refine ⟨⟨{ pn with next := none }, ?_, ?_⟩, hqlt⟩
          · show hset (afterUnshift l k v hd hn).heap p { pn with next := none } q.2 = _
            rw [hqp, hset_self]
          · show pn.key = q.1
            rw [hqp] at hnq
            rw [hnq] at hpn
            rw [← (Option.some_inj.mp hpn)]
            exact hkq
        · refine ⟨⟨nq, ?_, hkq⟩, hqlt⟩
          show hset (afterUnshift l k v hd hn).heap p { pn with next := none } q.2 = some nq
          rw [hset_other _ _ _ _ hqp]
          exact hnq
      · refine Or.inr ⟨by show 1 ≤ l.used + 1 - 1; omega, by show l.used + 1 - 1 ≤ l.size; omega,
          p, rest2, l.nextId, rfl, rfl, ?_, ?_, ?_, ?_⟩
        · show (p :: rest2).getLast? = some l.nextId
          rw [← hrest]
          exact List.getLast?_concat _
        · show linked _ (p :: rest2)
          refine linked_congr_all _ _ _ ?_ (linked_tail _ _ _ hlinkA2)
          intro a ha
          by_cases hap : a = p
          · subst hap
            rw [prevOf_hset_self]
            show pn.prev = prevOf _ a
            unfold prevOf
            rw [hpn]
          · rw [prevOf_hset_other _ _ _ _ hap]
        · show (p :: rest2).Nodup
          have := hndA
          rw [List.cons_append, hrest] at this
          exact (List.nodup_cons.mp this).2
        · intro c hc
          have hcmem : c ∈ (t :: cs) ++ [l.nextId] := by
            rw [List.cons_append, hrest]
            exact List.mem_cons_of_mem _ hc
          obtain ⟨⟨nc, hnc, hlc⟩, hclt⟩ := hcanonA c hcmem
          have hckey : nc.key ≠ tn.key := by
            intro hkeq
            rw [hkeq] at hlc
            rw [hlc] at hltc
            have hct : c = t := Option.some_inj.mp hltc
            subst hct
            have := hndA
            rw [List.cons_append, hrest] at this
            exact (List.nodup_cons.mp this).1 hc
          by_cases hcp : c = p
          · subst hcp
            have hne : nc = pn := by
              rw [hnc] at hpn
              exact Option.some_inj.mp hpn
            subst hne
            refine ⟨⟨{ nc with next := none }, ?_, ?_⟩, hclt⟩
            · show hset _ c { nc with next := none } c = _
              rw [hset_self]
            · show lookupAL (eraseAL _ tn.key) nc.key = some c
              rw [lookupAL_eraseAL_other _ _ _ hckey]
              exact hlc
          · refine ⟨⟨nc, ?_, ?_⟩, hclt⟩
            · show hset _ p { pn with next := none } c = some nc
              rw [hset_other _ _ _ _ hcp]
              exact hnc
            · show lookupAL (eraseAL _ tn.key) nc.key = some c
              rw [lookupAL_eraseAL_other _ _ _ hckey]
              exact hlc
      · show 1 ≤ l.used + 1 - 1
        omega
    · rw [if_neg hg, Option.some_inj] at hs
      subst hs
      refine ⟨⟨hcountA, hnodupA, hwfA, Or.inr ⟨by show 1 ≤ l.used + 1; omega,
        by show l.used + 1 ≤ l.size; omega, t, cs ++ [l.nextId], l.nextId, ht, rfl, ?_, ?_, ?_, ?_⟩⟩,
        by show 1 ≤ l.used + 1; omega⟩
      · show (t :: (cs ++ [l.nextId])).getLast? = some l.nextId
        rw [← List.cons_append]
        exact List.getLast?_concat _
      · exact hlinkA
      · exact hndA
      · exact hcanonA

theorem set_existing_preserves_InvL {K V : Type} [DecidableEq K] (l l' : lru K V) (k : K)
    (v : V) (x : Nat)
    (hcount : l.used = (l.cache.length : Int)) (hnodup : (keysAL l.cache).Nodup)
    (hwf : ∀ p ∈ l.cache, (∃ n, l.heap p.2 = some n ∧ n.key = p.1) ∧ p.2 < l.nextId)
    (hshape : (l.used = 0 ∧ l.head = none ∧ l.tail = none ∧ l.cache = []) ∨
      (1 ≤ l.used ∧ l.used ≤ l.size ∧
       ∃ t cs hd, l.tail = some t ∧ l.head = some hd ∧
         (t :: cs).getLast? = some hd ∧ chainOK l (t :: cs)))
    (hlk : lookupAL l.cache k = some x) (hs : lru.Set l k v = some l') :
    InvL l' ∧ 1 ≤ l'.used := by
  have hmem := lookupAL_mem _ _ _ hlk
  obtain ⟨⟨n, hnx, hkey⟩, hxlt⟩ := hwf (k, x) hmem
  rcases hshape with ⟨hu0, hh0, ht0, hc0⟩ | ⟨hu1, hus, t, cs, hd, ht, hh, hlast, hchain⟩
  · rw [hc0] at hlk
    simp [lookupAL] at hlk
  · obtain ⟨hlink, hnd, hcanon⟩ := hchain
    by_cases hxhd : hd = x
    · have hh2 : l.head = some x := by rw [← hxhd]; exact hh
      rw [set_existing_self l k v x n hlk hnx hh2, Option.some_inj] at hs
      subst hs
      have hH3x : (hset (hset (hset l.heap x { n with value := v }) x
          { n with value := v, next := some x }) x
          { n with value := v, next := some x, prev := some x }) x =
          some { n with value := v, next := some x, prev := some x } := hset_self _ _ _
      have hH3o : ∀ j, j ≠ x → (hset (hset (hset l.heap x { n with value := v }) x
          { n with value := v, next := some x }) x
          { n with value := v, next := some x, prev := some x }) j = l.heap j := by
        intro j hj
        rw [hset_other _ _ _ _ hj, hset_other _ _ _ _ hj, hset_other _ _ _ _ hj]
      refine ⟨⟨hcount, hnodup, ?_, ?_⟩, hu1⟩
      · intro q hq
        obtain ⟨⟨nq, hnq, hkq⟩, hqlt⟩ := hwf q hq
        by_cases hqx : q.2 = x
        · refine ⟨⟨{ n with value := v, next := some x, prev := some x }, ?_, ?_⟩, hqlt⟩
          · show _ = some _
            rw [hqx]
            exact hH3x
          · show n.key = q.1
            rw [hqx] at hnq
            rw [hnq] at hnx
            rw [← Option.some_inj.mp hnx]
            exact hkq
        · exact ⟨⟨nq, by dsimp only; rw [hH3o q.2 hqx]; exact hnq, hkq⟩, hqlt⟩
      · refine Or.inr ⟨hu1, hus, t, cs, x, ht, rfl, by rw [← hxhd]; exact hlast, ?_, hnd, ?_⟩
        · refine linked_congr_except_last l.heap _ (t :: cs) hnd x
            (by rw [← hxhd]; exact hlast) ?_ hlink
          intro a ha hane
          unfold prevOf
          dsimp only
          rw [hH3o a hane]
        · intro c hc
          obtain ⟨⟨nc, hnc, hlc⟩, hclt⟩ := hcanon c hc
          by_cases hcx : c = x
          · subst hcx
            refine ⟨⟨_, hH3x, ?_⟩, hclt⟩
            show lookupAL l.cache n.key = some c
            rw [hkey]
            exact hlk
          · exact ⟨⟨nc, by dsimp only; rw [hH3o c hcx]; exact hnc, hlc⟩, hclt⟩
    · obtain ⟨⟨hn2, hhd2, hlkhd⟩, hhdlt⟩ := hcanon hd (List.mem_of_mem_getLast? hlast)
      rw [set_existing_ne l k v x hd n hn2 hlk hnx hh hxhd hhd2, Option.some_inj] at hs
      subst hs
      have hH3hd : (hset (hset (hset l.heap x { n with value := v }) x
          { n with value := v, next := some hd }) hd { hn2 with prev := some x }) hd =
          some { hn2 with prev := some x } := hset_self _ _ _
      have hH3x : (hset (hset (hset l.heap x { n with value := v }) x
          { n with value := v, next := some hd }) hd { hn2 with prev := some x }) x =
          some { n with value := v, next := some hd } := by
        rw [hset_other _ _ _ _ (Ne.symm hxhd), hset_self]
      have hH3o : ∀ j, j ≠ hd → j ≠ x → (hset (hset (hset l.heap x { n with value := v }) x
          { n with value := v, next := some hd }) hd { hn2 with prev := some x }) j =
          l.heap j := by
        intro j hj1 hj2
        rw [hset_other _ _ _ _ hj1, hset_other _ _ _ _ hj2, hset_other _ _ _ _ hj2]
      have hagree : ∀ a, a ≠ hd → prevOf (hset (hset (hset l.heap x { n with value := v }) x
          { n with value := v, next := some hd }) hd { hn2 with prev := some x }) a =
          prevOf l.heap a := by
        intro a ha
        by_cases hax : a = x
        · subst hax
          unfold prevOf
          rw [hH3x, hnx]
        · unfold prevOf
          rw [hH3o a ha hax]
      have hwf3 : ∀ q ∈ l.cache, (∃ nq, (hset (hset (hset l.heap x { n with value := v }) x
          { n with value := v, next := some hd }) hd { hn2 with prev := some x }) q.2 =
          some nq ∧ nq.key = q.1) ∧ q.2 < l.nextId := by
        intro q hq
        obtain ⟨⟨nq, hnq, hkq⟩, hqlt⟩ := hwf q hq
        by_cases hqhd : q.2 = hd
        · refine ⟨⟨{ hn2 with prev := some x }, by rw [hqhd]; exact hH3hd, ?_⟩, hqlt⟩
          show hn2.key = q.1
          rw [hqhd] at hnq
          rw [hnq] at hhd2
          rw [← Option.some_inj.mp hhd2]
          exact hkq
        · by_cases hqx : q.2 = x
          · refine ⟨⟨{ n with value := v, next := some hd }, by rw [hqx]; exact hH3x, ?_⟩, hqlt⟩
            show n.key = q.1
            rw [hqx] at hnq
            rw [hnq] at hnx
            rw [← Option.some_inj.mp hnx]
            exact hkq
          · exact ⟨⟨nq, by rw [hH3o q.2 hqhd hqx]; exact hnq, hkq⟩, hqlt⟩
      refine ⟨⟨hcount, hnodup, hwf3, Or.inr ?_⟩, hu1⟩
      by_cases hxin : x ∈ t :: cs
      · obtain ⟨pre, suf, hsplit⟩ := List.append_of_mem hxin
        obtain ⟨cs2, hcs2⟩ : ∃ cs2, pre ++ [x] = t :: cs2 := by
          rcases pre with _ | ⟨a, pre'⟩
          · rw [List.nil_append] at hsplit ⊢
            have : t = x := (List.cons.injEq _ _ _ _).mp hsplit |>.1
            exact ⟨[], by rw [this]⟩
          · rw [List.cons_append] at hsplit
            have : a = t := ((List.cons.injEq _ _ _ _).mp hsplit).1.symm
            exact ⟨pre' ++ [x], by rw [List.cons_append, this]⟩
        have hsub : List.Sublist (pre ++ [x]) (t :: cs) := by
          rw [hsplit]
          exact List.Sublist.append_left ((List.nil_sublist suf).cons₂ x) pre
        have hhdnotin : hd ∉ pre ++ [x] := by
          have hndsplit : (pre ++ x :: suf).Nodup := by rw [← hsplit]; exact hnd
          have hdis := (List.nodup_append.mp hndsplit).2.2
          have hlast2 : (pre ++ x :: suf).getLast? = some hd := by rw [← hsplit]; exact hlast
          have hxsufne : x :: suf ≠ ([] : List Nat) := by simp
          rw [List.getLast?_append_of_ne_nil pre hxsufne] at hlast2
          have hdin : hd ∈ x :: suf := List.mem_of_mem_getLast? hlast2
          intro hcon
          rcases List.mem_append.mp hcon with hc1 | hc1
          · exact hdis hc1 hdin
          · simp only [List.mem_singleton] at hc1
            exact hxhd hc1
        refine ⟨hu1, hus, t, cs2, x, ht, rfl, ?_, ?_, ?_, ?_⟩
        · rw [← hcs2]
          exact List.getLast?_concat _
        · show linked _ (t :: cs2)
          rw [← hcs2]
          refine linked_congr_all l.heap _ (pre ++ [x]) ?_ ?_
          · intro a ha
            exact hagree a (fun hcon => hhdnotin (hcon ▸ ha))
          · refine linked_prefix_close l.heap x suf pre ?_
            rw [← hsplit]
            exact hlink
        · rw [← hcs2]
          exact hsub.nodup hnd
        · intro c hc
          rw [← hcs2] at hc
          have hcmem : c ∈ t :: cs := hsub.subset hc
          obtain ⟨⟨nc, hnc, hlc⟩, hclt⟩ := hcanon c hcmem
          by_cases hcx : c = x
          · subst hcx
            refine ⟨⟨_, hH3x, ?_⟩, hclt⟩
            show lookupAL l.cache n.key = some c
            rw [hkey]
            exact hlk
          · have hchd : c ≠ hd := fun hcon => hhdnotin (hcon ▸ hc)
            exact ⟨⟨nc, by dsimp only; rw [hH3o c hchd hcx]; exact hnc, hlc⟩, hclt⟩
      · refine ⟨hu1, hus, t, cs ++ [x], x, ht, rfl, ?_, ?_, ?_, ?_⟩
        · show (t :: (cs ++ [x])).getLast? = some x
          rw [← List.cons_append]
          exact List.getLast?_concat _
        · show linked _ ((t :: cs) ++ [x])
          refine linked_extend l.heap _ (t :: cs) hnd hd x hlast
            (fun a ha hane => hagree a hane) ?_ hlink
          unfold prevOf
          dsimp only
          rw [hH3hd]
        · exact nodup_concat_of hnd hxin
        · intro c hc
          rw [← List.cons_append] at hc
          rcases List.mem_append.mp hc with hcm | hcm
          · obtain ⟨⟨nc, hnc, hlc⟩, hclt⟩ := hcanon c hcm
            by_cases hchd : c = hd
            · subst hchd
              refine ⟨⟨_, hH3hd, ?_⟩, hclt⟩
              show lookupAL l.cache hn2.key = some c
              exact hlkhd
            · have hcx : c ≠ x := fun hcon => hxin (hcon ▸ hcm)
              exact ⟨⟨nc, by dsimp only; rw [hH3o c hchd hcx]; exact hnc, hlc⟩, hclt⟩
          · simp only [List.mem_singleton] at hcm
            subst hcm
            refine ⟨⟨_, hH3x, ?_⟩, hxlt⟩
            show lookupAL l.cache n.key = some c
            rw [hkey]
            exact hlk

theorem set_preserves_InvL {K V : Type} [DecidableEq K] (l l' : lru K V) (k : K) (v : V)
    (hinv : InvL l) (hs : lru.Set l k v = some l') : InvL l' ∧ 1 ≤ l'.used := by
  obtain ⟨hcount, hnodup, hwf, hshape⟩ := hinv
  rcases hx : lookupAL l.cache k with _ | x
  · exact set_new_preserves_InvL l l' k v hcount hnodup hwf hshape hx hs
  · exact set_existing_preserves_InvL l l' k v x hcount hnodup hwf hshape hx hs

theorem InvL_NewLRUCache (K V : Type) [DecidableEq K] (sz : Int) :
    InvL (NewLRUCache K V sz) := by
  refine ⟨rfl, by simp [NewLRUCache, keysAL], ?_, Or.inl ⟨rfl, rfl, rfl, rfl⟩⟩
  intro p hp
  simp [NewLRUCache] at hp

theorem runSets_preserves_InvL {K V : Type} [DecidableEq K] :
    ∀ (ops : List (K × V)) (l s : lru K V), InvL l → runSets l ops = some s →
      InvL s ∧ (ops ≠ [] → 1 ≤ s.used)
  | [], l, s, hinv, hrun => by
    rw [runSets, Option.some_inj] at hrun
    subst hrun
    exact ⟨hinv, fun hcon => absurd rfl hcon⟩
  | (k, v) :: rest, l, s, hinv, hrun => by
    simp only [runSets] at hrun
    rcases hset1 : lru.Set l k v with _ | l'
    · rw [hset1] at hrun
      cases hrun
    · rw [hset1] at hrun
      obtain ⟨hinv', hpos'⟩ := set_preserves_InvL l l' k v hinv hset1
      obtain ⟨hinvs, hposs⟩ := runSets_preserves_InvL rest l' s hinv' hrun
      refine ⟨hinvs, fun _ => ?_⟩
      rcases hrest : rest with _ | ⟨p, rest'⟩
      · rw [hrest] at hrun
        have hls : l' = s := Option.some_inj.mp hrun
        subst hls
        exact hpos'
      · exact hposs (by rw [hrest]; exact fun hcon => List.cons_ne_nil p rest' hcon)

theorem unshift_size {K V : Type} [DecidableEq K] (l l' : lru K V) (i : Nat)
    (h : lru.unshift l i = some l') : l'.size = l.size := by
  unfold lru.unshift at h
  split at h
  · cases h; rfl
  · split at h
    · cases h
    · dsimp only at h
      split at h
      · cases h
      · cases h; rfl

theorem pop_size {K V : Type} [DecidableEq K] (l l' : lru K V)
    (h : lru.pop l = some l') : l'.size = l.size := by
  unfold lru.pop at h
  split at h
  · cases h
  · split at h
    · cases h
    · split at h
      · cases h
      · split at h
        · cases h
        · cases h; rfl

theorem Set_size {K V : Type} [DecidableEq K] (l l' : lru K V) (k : K) (v : V)
    (h : lru.Set l k v = some l') : l'.size = l.size := by
  unfold lru.Set at h
  split at h
  · split at h
    · cases h
    · exact (unshift_size _ _ _ h).trans rfl
  · dsimp only at h
    split at h
    · cases h
    · split at h
      · split at h
        · cases h
        · cases h
          have h1 := unshift_size _ _ _ (by assumption)
          have h2 := pop_size _ _ (by assumption)
          dsimp only at h1 h2 ⊢
          rw [h2, h1]
      · cases h
        have h1 := unshift_size _ _ _ (by assumption)
        dsimp only at h1 ⊢
        exact h1

theorem runSets_size {K V : Type} [DecidableEq K] :
    ∀ (ops : List (K × V)) (l s : lru K V), runSets l ops = some s → s.size = l.size
  | [], l, s, hrun => by
    have hls : l = s := Option.some_inj.mp hrun
    rw [hls]
  | (k, v) :: rest, l, s, hrun => by
    simp only [runSets] at hrun
    rcases hset1 : lru.Set l k v with _ | l'
    · rw [hset1] at hrun
      cases hrun
    · rw [hset1] at hrun
      rw [runSets_size rest l' s hrun]
      exact Set_size _ _ _ _ hset1

/-- C4: LRU capacity invariant.  For every capacity and every sequence of `Set`
calls on a freshly constructed LRU cache that completes without a nil-panic and
contains at least one call, the number of live entries (keys in the hash index)
in the resulting state is at most the configured capacity.  Since every prefix
of a `Set` sequence is itself a `Set` sequence, this bounds the entry count
after each call. -/
theorem lru_capacity_invariant {K V : Type} [DecidableEq K] (sz : Int) (ops : List (K × V))
    (s : lru K V) (hne : ops ≠ []) (hrun : runSets (NewLRUCache K V sz) ops = some s) :
    (s.cache.length : Int) ≤ sz := by
  obtain ⟨hinv, hpos⟩ := runSets_preserves_InvL ops _ s (InvL_NewLRUCache K V sz) hrun
  obtain ⟨hcount, hnd, hwf, hshape⟩ := hinv
  have hsz : s.size = sz := (runSets_size ops _ s hrun).trans rfl
  have hu := hpos hne
  rcases hshape with ⟨hu0, h1, h2, h3⟩ | ⟨h1, hus, h2⟩
  · omega
  · omega

/-- Witness for C4 at capacity 1 with three `Set` calls (one key re-set). -/
theorem lru_capacity_invariant_witness :
    ((((runSets (NewLRUCache Nat Nat 1) [(1, 10), (1, 20), (2, 30)]).getD
      (NewLRUCache Nat Nat 1)).cache.length : Int)) ≤ 1 :=
  lru_capacity_invariant 1 [(1, 10), (1, 20), (2, 30)] _ (by decide) (by rfl)
